import Mathlib

/-!
Verification of the author-list extraction and Zenodo submission script
(`extract_author_info.py`).

The development shallowly embeds the data model and the operations of the
script:

* `MRow` is one row of the per-sheet category-membership table
  (columns `last name`, `first name`, the six authorship-category weight
  columns, and `sum`), after `fillna(0)`.
* `ARow` is one row of the `Template` sheet (the master
  name/affiliation/ORCID table).
* `makeAuthorOrder` embeds `_make_author_order`: the `sum > 0` filter, the
  unique-key assertion, the six category passes, and the final
  `len(author_order_list) == len(df.index)` assertion.  Assertion failures
  are modelled as `none`.
* `makeAffiliationsDicts` embeds `_make_affiliations_dicts` (fallible:
  the `KeyError` branch raises, modelled as `Except.error`).
* `makeCreatorEntry` / `makeCreatorArray` embed `_make_creator_array`.
* `superscript` embeds `_superscript`.
* `checkDatafilePaths` embeds `_get_and_check_datafile_paths` and
  `doZenodoSubmission` embeds `do_zenodo_submission` with the HTTP
  responses passed in as explicit values.
-/

namespace ExtractAuthorInfo

/-- One row of the membership table used by `_make_author_order`, after
`df.fillna(value=0)`: the name columns, the six authorship-category weight
columns, and the `sum` column. -/
structure MRow where
  lastName : String
  firstName : String
  firstAuthor : Int
  contrib1 : Int
  contrib2 : Int
  consortiumCoord : Int
  scientificDirector : Int
  contrib3 : Int
  sum : Int
deriving DecidableEq

/-- The identity key built by the script:
`last_name + first_name[0]` (first character of the first name). -/
def MRow.key (r : MRow) : String :=
  r.lastName ++ r.firstName.take 1

/-- Embeds `df = df[df['sum'] > 0]`: only rows with a positive `sum` participate in
the ordering. -/
def filteredRows (rows : List MRow) : List MRow :=
  rows.filter (fun r => decide (0 < r.sum))

/-- The placement condition of the first four ("ordinary") categories:
`df.at[author, author_category] > 0 and df.at[author, 'Scientific Directors'] == 0
and df.at[author, 'Contributing authors list #3'] == 0`. -/
def ordinaryCond (cat : MRow → Int) (r : MRow) : Prop :=
  0 < cat r ∧ r.scientificDirector = 0 ∧ r.contrib3 = 0

instance (cat : MRow → Int) : DecidablePred (ordinaryCond cat) := fun r => by
  unfold ordinaryCond; exact inferInstance

/-- The placement condition of the two override categories
(`Scientific Directors`, `Contributing authors list #3`):
`df.at[author, author_category] > 0`, with no further condition. -/
def overrideCond (cat : MRow → Int) (r : MRow) : Prop :=
  0 < cat r

instance (cat : MRow → Int) : DecidablePred (overrideCond cat) := fun r => by
  unfold overrideCond; exact inferInstance

/-- One pass of the ordering loop over the table rows for a single category:
append `author` to the accumulated order when it has not been placed yet and
the category's placement condition holds. -/
def categoryPass (p : MRow → Prop) [DecidablePred p]
    (rows : List MRow) (acc : List String) : List String :=
  rows.foldl (fun acc r => if r.key ∉ acc ∧ p r then acc ++ [r.key] else acc) acc

/-- Order after the `First author(s)` pass. -/
def afterFirstAuthor (f : List MRow) : List String :=
  categoryPass (ordinaryCond MRow.firstAuthor) f []

/-- Order after the `Contributing authors list #1` pass. -/
def afterContrib1 (f : List MRow) : List String :=
  categoryPass (ordinaryCond MRow.contrib1) f (afterFirstAuthor f)

/-- Order after the `Contributing authors list #2` pass. -/
def afterContrib2 (f : List MRow) : List String :=
  categoryPass (ordinaryCond MRow.contrib2) f (afterContrib1 f)

/-- Order after the `Consortium Coordinators` pass. -/
def afterConsortium (f : List MRow) : List String :=
  categoryPass (ordinaryCond MRow.consortiumCoord) f (afterContrib2 f)

/-- Order after the `Scientific Directors` pass (first override category). -/
def afterSciDir (f : List MRow) : List String :=
  categoryPass (overrideCond MRow.scientificDirector) f (afterConsortium f)

/-- The complete `author_order_list` produced by the six category passes, in
the order `self.author_categories` lists them. -/
def buildOrder (f : List MRow) : List String :=
  categoryPass (overrideCond MRow.contrib3) f (afterSciDir f)

/-- Embeds `_make_author_order`: filter to `sum > 0`, assert the keys are unique,
run the six category passes, and assert that every filtered row was placed
(`assert(len(author_order_list) == len(df.index))`).  A failed assertion
is modelled as `none`. -/
def makeAuthorOrder (rows : List MRow) : Option (List String) :=
  if ((filteredRows rows).map MRow.key).Nodup then
    if (buildOrder (filteredRows rows)).length = (filteredRows rows).length then
      some (buildOrder (filteredRows rows))
    else
      none
  else
    none

/-! Basic lemmas about a single category pass. -/

theorem categoryPass_nil (p : MRow → Prop) [DecidablePred p] (acc : List String) :
    categoryPass p [] acc = acc := rfl

theorem categoryPass_cons (p : MRow → Prop) [DecidablePred p] (r : MRow)
    (rows : List MRow) (acc : List String) :
    categoryPass p (r :: rows) acc =
      categoryPass p rows (if r.key ∉ acc ∧ p r then acc ++ [r.key] else acc) := rfl

theorem mem_categoryPass_of_mem (p : MRow → Prop) [DecidablePred p] :
    ∀ (rows : List MRow) (acc : List String) (k : String),
      k ∈ acc → k ∈ categoryPass p rows acc := by
  intro rows
  induction rows with
  | nil => intro acc k h; simpa [categoryPass_nil] using h
  | cons r rows ih =>
    intro acc k h
    rw [categoryPass_cons]
    apply ih
    split
    · exact List.mem_append_left _ h
    · exact h

theorem mem_categoryPass_cases (p : MRow → Prop) [DecidablePred p] :
    ∀ (rows : List MRow) (acc : List String) (k : String),
      k ∈ categoryPass p rows acc →
      k ∈ acc ∨ ∃ r ∈ rows, r.key = k ∧ p r := by
  intro rows
  induction rows with
  | nil => intro acc k h; exact Or.inl (by simpa [categoryPass_nil] using h)
  | cons r rows ih =>
    intro acc k h
    rw [categoryPass_cons] at h
    rcases ih _ _ h with h' | ⟨r', hr', hk', hp'⟩
    · by_cases hc : r.key ∉ acc ∧ p r
      · rw [if_pos hc] at h'
        rcases List.mem_append.mp h' with h'' | h''
        · exact Or.inl h''
        · refine Or.inr ⟨r, List.mem_cons_self .., ?_, hc.2⟩
          have : k = r.key := by simpa using h''
          exact this.symm
      · rw [if_neg hc] at h'
        exact Or.inl h'
    · exact Or.inr ⟨r', List.mem_cons_of_mem _ hr', hk', hp'⟩

theorem key_mem_categoryPass (p : MRow → Prop) [DecidablePred p] :
    ∀ (rows : List MRow) (acc : List String) (r : MRow),
      r ∈ rows → p r → r.key ∈ categoryPass p rows acc := by
  intro rows
  induction rows with
  | nil => intro acc r h; exact absurd h (List.not_mem_nil _)
  | cons r' rows ih =>
    intro acc r hmem hp
    rw [categoryPass_cons]
    rcases List.mem_cons.mp hmem with rfl | hmem'
    · by_cases hc : r.key ∉ acc ∧ p r
      · rw [if_pos hc]
        exact mem_categoryPass_of_mem _ _ _ _ (List.mem_append_right _ (by simp))
      · rw [if_neg hc]
        have : r.key ∈ acc := by
          by_contra hk
          exact hc ⟨hk, hp⟩
        exact mem_categoryPass_of_mem _ _ _ _ this
    · exact ih _ _ hmem' hp

theorem nodup_categoryPass (p : MRow → Prop) [DecidablePred p] :
    ∀ (rows : List MRow) (acc : List String),
      acc.Nodup → (categoryPass p rows acc).Nodup := by
  intro rows
  induction rows with
  | nil => intro acc h; simpa [categoryPass_nil] using h
  | cons r rows ih =>
    intro acc h
    rw [categoryPass_cons]
    apply ih
    split
    · next hc => simp [List.nodup_append, h, hc.1]
    · exact h

/-- Under the unique-key assertion, two filtered rows with the same key are
the same row. -/
theorem row_eq_of_key_eq {rows : List MRow}
    (hU : ((filteredRows rows).map MRow.key).Nodup)
    {r r' : MRow} (hr : r ∈ filteredRows rows) (hr' : r' ∈ filteredRows rows)
    (hk : r'.key = r.key) : r' = r :=
  List.inj_on_of_nodup_map hU hr' hr hk

theorem mem_afterFirstAuthor_cases {f : List MRow} {k : String}
    (h : k ∈ afterFirstAuthor f) :
    ∃ r ∈ f, r.key = k ∧ ordinaryCond MRow.firstAuthor r := by
  rcases mem_categoryPass_cases _ f [] k h with h' | h'
  · exact absurd h' (List.not_mem_nil k)
  · exact h'

theorem mem_afterContrib1_cases {f : List MRow} {k : String}
    (h : k ∈ afterContrib1 f) :
    ∃ r ∈ f, r.key = k ∧
      (ordinaryCond MRow.firstAuthor r ∨ ordinaryCond MRow.contrib1 r) := by
  rcases mem_categoryPass_cases _ f _ k h with h' | ⟨r, hr, hk, hp⟩
  · obtain ⟨r, hr, hk, hp⟩ := mem_afterFirstAuthor_cases h'
    exact ⟨r, hr, hk, Or.inl hp⟩
  · exact ⟨r, hr, hk, Or.inr hp⟩

theorem mem_afterContrib2_cases {f : List MRow} {k : String}
    (h : k ∈ afterContrib2 f) :
    ∃ r ∈ f, r.key = k ∧
      (ordinaryCond MRow.firstAuthor r ∨ ordinaryCond MRow.contrib1 r ∨
        ordinaryCond MRow.contrib2 r) := by
  rcases mem_categoryPass_cases _ f _ k h with h' | ⟨r, hr, hk, hp⟩
  · obtain ⟨r, hr, hk, hp⟩ := mem_afterContrib1_cases h'
    exact ⟨r, hr, hk, hp.imp_right Or.inl⟩
  · exact ⟨r, hr, hk, Or.inr (Or.inr hp)⟩

theorem mem_afterConsortium_cases {f : List MRow} {k : String}
    (h : k ∈ afterConsortium f) :
    ∃ r ∈ f, r.key = k ∧
      (ordinaryCond MRow.firstAuthor r ∨ ordinaryCond MRow.contrib1 r ∨
        ordinaryCond MRow.contrib2 r ∨ ordinaryCond MRow.consortiumCoord r) := by
  rcases mem_categoryPass_cases _ f _ k h with h' | ⟨r, hr, hk, hp⟩
  · obtain ⟨r, hr, hk, hp⟩ := mem_afterContrib2_cases h'
    refine ⟨r, hr, hk, ?_⟩
    rcases hp with h1 | h1 | h1
    · exact Or.inl h1
    · exact Or.inr (Or.inl h1)
    · exact Or.inr (Or.inr (Or.inl h1))
  · exact ⟨r, hr, hk, Or.inr (Or.inr (Or.inr hp))⟩

/-- C1.  An author row with positive weight in an override category
(`Scientific Directors` or `Contributing authors list #3`) is never placed
by the four ordinary-category passes, and is placed at the override
category's own pass; an author row with zero override weights is placed at
the first ordinary category, in the priority order
`[First author(s), Contributing authors list #1, Contributing authors
list #2, Consortium Coordinators]`, in which its weight is positive. -/
theorem authorOrder_override_precedence (rows : List MRow) (r : MRow)
    (hU : ((filteredRows rows).map MRow.key).Nodup)
    (hr : r ∈ filteredRows rows) :
    (0 < r.scientificDirector ∨ 0 < r.contrib3 →
      r.key ∉ afterConsortium (filteredRows rows) ∧
      (0 < r.scientificDirector → r.key ∈ afterSciDir (filteredRows rows)) ∧
      (r.scientificDirector ≤ 0 → 0 < r.contrib3 →
        r.key ∉ afterSciDir (filteredRows rows) ∧
        r.key ∈ buildOrder (filteredRows rows)))
    ∧ (r.scientificDirector = 0 → r.contrib3 = 0 →
      (0 < r.firstAuthor → r.key ∈ afterFirstAuthor (filteredRows rows)) ∧
      (r.firstAuthor ≤ 0 → 0 < r.contrib1 →
        r.key ∉ afterFirstAuthor (filteredRows rows) ∧
        r.key ∈ afterContrib1 (filteredRows rows)) ∧
      (r.firstAuthor ≤ 0 → r.contrib1 ≤ 0 → 0 < r.contrib2 →
        r.key ∉ afterContrib1 (filteredRows rows) ∧
        r.key ∈ afterContrib2 (filteredRows rows)) ∧
      (r.firstAuthor ≤ 0 → r.contrib1 ≤ 0 → r.contrib2 ≤ 0 →
        0 < r.consortiumCoord →
        r.key ∉ afterContrib2 (filteredRows rows) ∧
        r.key ∈ afterConsortium (filteredRows rows))) := by
  constructor
  · intro hov
    have hnotord : r.key ∉ afterConsortium (filteredRows rows) := by
      intro hmem
      obtain ⟨r', hr', hk', hcond⟩ := mem_afterConsortium_cases hmem
      have heq : r' = r := row_eq_of_key_eq hU hr hr' hk'
      subst heq
      rcases hov with hsd | hc3
      · rcases hcond with h | h | h | h <;> exact absurd h.2.1 (by omega)
      · rcases hcond with h | h | h | h <;> exact absurd h.2.2 (by omega)
    refine ⟨hnotord, ?_, ?_⟩
    · intro hsd
      exact key_mem_categoryPass _ (filteredRows rows) _ r hr hsd
    · intro hsdle hc3
      have hnots : r.key ∉ afterSciDir (filteredRows rows) := by
        intro hmem
        rcases mem_categoryPass_cases _ _ _ _ hmem with h' | ⟨r', hr', hk', hp'⟩
        · exact hnotord h'
        · have heq : r' = r := row_eq_of_key_eq hU hr hr' hk'
          subst heq
          exact absurd hp' (by unfold overrideCond; omega)
      exact ⟨hnots, key_mem_categoryPass _ (filteredRows rows) _ r hr hc3⟩
  · intro hsd hc3
    refine ⟨?_, ?_, ?_, ?_⟩
    · intro hfa
      exact key_mem_categoryPass _ (filteredRows rows) _ r hr ⟨hfa, hsd, hc3⟩
    · intro hfale hc1
      have h1 : r.key ∉ afterFirstAuthor (filteredRows rows) := by
        intro hmem
        obtain ⟨r', hr', hk', hp'⟩ := mem_afterFirstAuthor_cases hmem
        have heq : r' = r := row_eq_of_key_eq hU hr hr' hk'
        subst heq
        exact absurd hp'.1 (by omega)
      exact ⟨h1, key_mem_categoryPass _ (filteredRows rows) _ r hr ⟨hc1, hsd, hc3⟩⟩
    · intro hfale hc1le hc2
      have h2 : r.key ∉ afterContrib1 (filteredRows rows) := by
        intro hmem
        obtain ⟨r', hr', hk', hp'⟩ := mem_afterContrib1_cases hmem
        have heq : r' = r := row_eq_of_key_eq hU hr hr' hk'
        subst heq
        rcases hp' with h | h <;> exact absurd h.1 (by omega)
      exact ⟨h2, key_mem_categoryPass _ (filteredRows rows) _ r hr ⟨hc2, hsd, hc3⟩⟩
    · intro hfale hc1le hc2le hcc
      have h3 : r.key ∉ afterContrib2 (filteredRows rows) := by
        intro hmem
        obtain ⟨r', hr', hk', hp'⟩ := mem_afterContrib2_cases hmem
        have heq : r' = r := row_eq_of_key_eq hU hr hr' hk'
        subst heq
        rcases hp' with h | h | h <;> exact absurd h.1 (by omega)
      exact ⟨h3, key_mem_categoryPass _ (filteredRows rows) _ r hr ⟨hcc, hsd, hc3⟩⟩

/-- C1 witness: the spec's own example, an author with `Contrib1 = 1` and
`ScientificDirector = 1`, is skipped by all four ordinary passes and placed
by the `Scientific Directors` pass. -/
theorem authorOrder_override_precedence_witness :
    "LeeK" ∉
      afterConsortium (filteredRows
        [⟨"Lee", "Ken", 0, 1, 0, 0, 1, 0, 2⟩]) ∧
    "LeeK" ∈
      afterSciDir (filteredRows
        [⟨"Lee", "Ken", 0, 1, 0, 0, 1, 0, 2⟩]) := by
  have h := authorOrder_override_precedence
    [⟨"Lee", "Ken", 0, 1, 0, 0, 1, 0, 2⟩]
    ⟨"Lee", "Ken", 0, 1, 0, 0, 1, 0, 2⟩
    (by decide) (by decide)
  obtain ⟨h1, _⟩ := h
  obtain ⟨ha, hb, _⟩ := h1 (Or.inl (by decide))
  exact ⟨ha, hb (by decide)⟩

theorem buildOrder_nodup (f : List MRow) : (buildOrder f).Nodup := by
  unfold buildOrder afterSciDir afterConsortium afterContrib2 afterContrib1
    afterFirstAuthor
  apply nodup_categoryPass
  apply nodup_categoryPass
  apply nodup_categoryPass
  apply nodup_categoryPass
  apply nodup_categoryPass
  apply nodup_categoryPass
  exact List.nodup_nil

theorem buildOrder_subset_keys (f : List MRow) :
    ∀ k ∈ buildOrder f, k ∈ f.map MRow.key := by
  intro k h
  rcases mem_categoryPass_cases _ f _ k h with h' | ⟨r, hr, hk, _⟩
  · rcases mem_categoryPass_cases _ f _ k h' with h'' | ⟨r, hr, hk, _⟩
    · obtain ⟨r, hr, hk, _⟩ := mem_afterConsortium_cases h''
      exact hk ▸ List.mem_map_of_mem MRow.key hr
    · exact hk ▸ List.mem_map_of_mem MRow.key hr
  · exact hk ▸ List.mem_map_of_mem MRow.key hr

/-- C2.  When `_make_author_order` returns (none of its assertions fire),
every filtered row's author key appears exactly once in the returned order
and the order has exactly as many entries as the filtered table; and if the
category passes fail to place some filtered row, the function aborts
(the `len(author_order_list) == len(df.index)` assertion fails, modelled as
`none`) rather than silently dropping the author. -/
theorem authorOrder_exactly_once (rows : List MRow)
    (hU : ((filteredRows rows).map MRow.key).Nodup) :
    (∀ order, makeAuthorOrder rows = some order →
      order.length = (filteredRows rows).length ∧
      ∀ r ∈ filteredRows rows, order.count r.key = 1)
    ∧ (∀ r ∈ filteredRows rows,
        r.key ∉ buildOrder (filteredRows rows) → makeAuthorOrder rows = none) := by
  have main : ∀ order, makeAuthorOrder rows = some order →
      order.length = (filteredRows rows).length ∧
      ∀ r ∈ filteredRows rows, order.count r.key = 1 := by
    intro order h
    unfold makeAuthorOrder at h
    rw [if_pos hU] at h
    by_cases hlen :
        (buildOrder (filteredRows rows)).length = (filteredRows rows).length
    · rw [if_pos hlen] at h
      have horder : order = buildOrder (filteredRows rows) :=
        (Option.some.injEq _ _ ▸ h).symm
      subst horder
      refine ⟨hlen, ?_⟩
      have hnd := buildOrder_nodup (filteredRows rows)
      have hsub : buildOrder (filteredRows rows) ⊆
          (filteredRows rows).map MRow.key := fun _ hk =>
        buildOrder_subset_keys _ _ hk
      have hperm : (buildOrder (filteredRows rows)).Perm
          ((filteredRows rows).map MRow.key) := by
        refine (List.subperm_of_subset hnd hsub).perm_of_length_le ?_
        rw [List.length_map, hlen]
      intro r hr
      have hmem : r.key ∈ buildOrder (filteredRows rows) :=
        hperm.mem_iff.mpr (List.mem_map_of_mem MRow.key hr)
      exact List.count_eq_one_of_mem hnd hmem
    · rw [if_neg hlen] at h
      exact absurd h (by simp)
  refine ⟨main, ?_⟩
  intro r hr hnot
  cases h : makeAuthorOrder rows with
  | none => rfl
  | some order =>
    exfalso
    have horder : order = buildOrder (filteredRows rows) := by
      unfold makeAuthorOrder at h
      rw [if_pos hU] at h
      by_cases hlen :
          (buildOrder (filteredRows rows)).length = (filteredRows rows).length
      · rw [if_pos hlen] at h
        exact (Option.some.injEq _ _ ▸ h).symm
      · rw [if_neg hlen] at h
        exact absurd h (by simp)
    have hone := (main order h).2 r hr
    rw [horder] at hone
    have : r.key ∈ buildOrder (filteredRows rows) := by
      have : 0 < (buildOrder (filteredRows rows)).count r.key := by omega
      exact List.count_pos_iff.mp this
    exact hnot this

/-- C2 witness: on a two-row table both keys appear exactly once in the
returned order, and the order's length matches the filtered table's. -/
theorem authorOrder_exactly_once_witness :
    (["SmithJ", "DoeA"].length =
      (filteredRows
        [⟨"Smith", "John", 1, 0, 0, 0, 0, 0, 1⟩,
         ⟨"Doe", "Anna", 0, 1, 0, 0, 0, 0, 1⟩]).length) ∧
    List.count "DoeA" ["SmithJ", "DoeA"] = 1 := by
  have h := (authorOrder_exactly_once
    [⟨"Smith", "John", 1, 0, 0, 0, 0, 0, 1⟩,
     ⟨"Doe", "Anna", 0, 1, 0, 0, 0, 0, 1⟩] (by decide)).1
    ["SmithJ", "DoeA"] (by decide)
  refine ⟨h.1, ?_⟩
  have hd := h.2 ⟨"Doe", "Anna", 0, 1, 0, 0, 0, 0, 1⟩ (by decide)
  exact hd

/-- One row of the `Template` sheet after projection to
`['last name', 'first name', 'first name initial(s)', 'affiliation', 'ORCID']`. -/
structure ARow where
  lastName : String
  firstName : String
  firstInitials : String
  affiliation : String
  orcid : String
deriving DecidableEq

/-- The same identity key as for the membership table:
`last_name + first_name[0]`. -/
def ARow.key (a : ARow) : String :=
  a.lastName ++ a.firstName.take 1

/-- Embeds `self.author_info_df.at[author, 'affiliation']`: label lookup in the
author-record table; `none` models the `KeyError` of a missing label. -/
def lookupAffil (table : List ARow) (author : String) : Option String :=
  (table.find? (fun a => a.key == author)).map ARow.affiliation

/-- The affiliation placed by the post-load patch
`df.at['PogoreutzC', 'affiliation'] = ...`. -/
def konstanzAffiliation : String :=
  "Department of Biology, University of Konstanz, 78457 Konstanz, Germany"

/-- The post-load affiliation fix for the `PogoreutzC` row. -/
def patchPogoreutz (a : ARow) : ARow :=
  if a.key = "PogoreutzC" then { a with affiliation := konstanzAffiliation } else a

/-- The author record appended by
`df.loc['ClayssenQ'] = ['Clayssen', 'Quentin', 'C.', 'not-provided', 'not-provided']`. -/
def clayssenRow : ARow :=
  ⟨"Clayssen", "Quentin", "C.", "not-provided", "not-provided"⟩

/-- Embeds `_make_author_info_df`: build keys, assert that they are unique
(`none` models the assertion failure), then apply the two fixed data
patches: the `PogoreutzC` affiliation fill-in and the appended `ClayssenQ`
row. -/
def makeAuthorInfoDf (rows : List ARow) : Option (List ARow) :=
  if (rows.map ARow.key).Nodup then
    some ((rows.map patchPogoreutz) ++ [clayssenRow])
  else
    none

/-- The four registry objects built by `_make_affiliations_dicts`:
`affiliation_list`, `affil_str_to_affil_num_dict`,
`affil_num_to_affil_str_dict` and `author_to_affil_num_list_dict`
(the latter a `defaultdict(list)`, modelled as a total function with
default `[]`). -/
structure AffilState where
  affiliationList : List String
  affilStrToNum : String → Option Nat
  affilNumToStr : Nat → Option String
  authorToAffilNums : String → List Nat

def initAffilState : AffilState :=
  ⟨[], fun _ => none, fun _ => none, fun _ => []⟩

/-- The body of the `for author in self.author_order` loop of
`_make_affiliations_dicts`.  A missing author record raises
(`raise RuntimeWarning(...)`, modelled as `Except.error` carrying the
exception's message); the single affiliation cell is processed as the
one-element list `author_affil_list`. -/
def processAuthor (table : List ARow) (st : AffilState) (author : String) :
    Except String AffilState :=
  match lookupAffil table author with
  | none =>
    Except.error ("An affiliation could not be found for " ++ author ++
      "\nNo affiliation will be associated.")
  | some affilString =>
    if affilString ∉ st.affiliationList then
      Except.ok
        { affiliationList := st.affiliationList ++ [affilString]
          affilStrToNum := fun s =>
            if s = affilString then some (st.affiliationList.length + 1)
            else st.affilStrToNum s
          affilNumToStr := fun n =>
            if n = st.affiliationList.length + 1 then some affilString
            else st.affilNumToStr n
          authorToAffilNums := fun a =>
            if a = author then
              st.authorToAffilNums author ++ [st.affiliationList.length + 1]
            else st.authorToAffilNums a }
    else
      match st.affilStrToNum affilString with
      | none => Except.error "KeyError"
      | some n =>
        Except.ok
          { st with authorToAffilNums := fun a =>
              if a = author then st.authorToAffilNums author ++ [n]
              else st.authorToAffilNums a }

/-- The loop of `_make_affiliations_dicts` over `self.author_order`. -/
def makeAffiliationsDictsGo (table : List ARow) :
    List String → AffilState → Except String AffilState
  | [], st => Except.ok st
  | a :: rest, st =>
    match processAuthor table st a with
    | Except.error e => Except.error e
    | Except.ok st' => makeAffiliationsDictsGo table rest st'

/-- Embeds `_make_affiliations_dicts`. -/
def makeAffiliationsDicts (table : List ARow) (order : List String) :
    Except String AffilState :=
  makeAffiliationsDictsGo table order initAffilState

/-- The per-affiliation strings of `_create_affiliation_strings`:
`f'{affil_num + 1}-{self.affil_num_to_affil_str_dict[affil_num + 1]}'` for
`affil_num in range(len(self.affiliation_list))` (the dictionary lookup
always succeeds there; `getD ""` stands for the raw lookup). -/
def affiliationEntries (st : AffilState) : List String :=
  (List.range st.affiliationList.length).map
    (fun i => toString (i + 1) ++ "-" ++ (st.affilNumToStr (i + 1)).getD "")

/-- A creator dictionary of `_make_creator_array`: the optional keys
`affiliation` and `orcid` are omitted (`none`) exactly when the field holds
the sentinel `'not-provided'`. -/
structure CreatorEntry where
  name : String
  affiliation : Option String
  orcid : Option String
deriving DecidableEq

/-- The body of the `for author in self.author_order` loop of
`_make_creator_array`. -/
def makeCreatorEntry (rec : ARow) : CreatorEntry :=
  { name := rec.lastName ++ ", " ++ rec.firstName
    affiliation :=
      if rec.affiliation = "not-provided" then none else some rec.affiliation
    orcid := if rec.orcid = "not-provided" then none else some rec.orcid }

/-- Embeds `_make_creator_array`: one entry per author of the order; a missing
author record raises a `KeyError`. -/
def makeCreatorArray (table : List ARow) (order : List String) :
    Except String (List CreatorEntry) :=
  order.mapM (fun author =>
    match table.find? (fun a => a.key == author) with
    | none => Except.error "KeyError"
    | some rec => Except.ok (makeCreatorEntry rec))

/-- C3.  The code path for an author whose affiliation string cannot be
found does NOT warn and continue: `_make_affiliations_dicts` executes
`raise RuntimeWarning(...)`, which aborts registry construction with an
uncaught exception (even though the exception's own message promises that
"No affiliation will be associated", i.e. continuation).  Evaluated at a
concrete failing input: an order containing `SmithJ` against an empty
author-record table. -/
theorem missingAffiliation_raises :
    makeAffiliationsDicts [] ["SmithJ"] =
      Except.error
        "An affiliation could not be found for SmithJ\nNo affiliation will be associated." :=
  rfl

/-- The invariant tying the four registry objects together: the affiliation
list holds each string once; the string at (0-based) position `i` carries the
(1-based) number `i + 1` in the string-to-number map; every assigned number
points back into the list; and the number-to-string map is exactly the
(1-based) indexing of the list. -/
def RegistryInv (st : AffilState) : Prop :=
  st.affiliationList.Nodup
  ∧ (∀ i s, st.affiliationList[i]? = some s →
      st.affilStrToNum s = some (i + 1))
  ∧ (∀ s n, st.affilStrToNum s = some n →
      ∃ i, i + 1 = n ∧ st.affiliationList[i]? = some s)
  ∧ (∀ i, st.affilNumToStr (i + 1) = st.affiliationList[i]?)
  ∧ st.affilNumToStr 0 = none

theorem registryInv_init : RegistryInv initAffilState := by
  refine ⟨List.nodup_nil, ?_, ?_, ?_, rfl⟩
  · intro i s h
    simp [initAffilState] at h
  · intro s n h
    simp [initAffilState] at h
  · intro i
    simp [initAffilState]

theorem processAuthor_ok {table : List ARow} {st : AffilState} {a : String}
    {st' : AffilState} (hInv : RegistryInv st)
    (h : processAuthor table st a = Except.ok st') :
    RegistryInv st'
    ∧ (∃ t, st'.affiliationList = st.affiliationList ++ t)
    ∧ (∀ x, x ≠ a → st'.authorToAffilNums x = st.authorToAffilNums x)
    ∧ (∀ s n, st.affilStrToNum s = some n → st'.affilStrToNum s = some n)
    ∧ (∃ s n, lookupAffil table a = some s ∧ st'.affilStrToNum s = some n ∧
        st'.authorToAffilNums a = st.authorToAffilNums a ++ [n]) := by
  obtain ⟨hI1, hI2, hI3, hI4, hI5⟩ := hInv
  cases hl : lookupAffil table a with
  | none =>
    rw [processAuthor, hl] at h
    exact absurd h (by simp)
  | some affil =>
    rw [processAuthor, hl] at h
    simp only at h
    by_cases hmem : affil ∉ st.affiliationList
    · rw [if_pos hmem] at h
      injection h with hst'
      subst hst'
      have hmem' : affil ∉ st.affiliationList := hmem
      refine ⟨⟨?_, ?_, ?_, ?_, ?_⟩, ⟨[affil], rfl⟩, ?_, ?_, ?_⟩
      · dsimp only
        simp [List.nodup_append, hI1, hmem']
      · intro i s hs
        dsimp only at hs ⊢
        by_cases hi : i < st.affiliationList.length
        · rw [List.getElem?_append_left hi] at hs
          have hsm : s ∈ st.affiliationList := List.getElem?_mem hs
          have hne : s ≠ affil := fun e => hmem' (e ▸ hsm)
          simpa [hne] using hI2 i s hs
        · have hge : st.affiliationList.length ≤ i := Nat.le_of_not_lt hi
          rw [List.getElem?_append_right hge] at hs
          cases hj : i - st.affiliationList.length with
          | zero =>
            rw [hj] at hs
            have hs' : s = affil := by simpa using hs.symm
            subst hs'
            have hieq : i = st.affiliationList.length := by omega
            subst hieq
            simp
          | succ m =>
            rw [hj] at hs
            simp at hs
      · intro s n hs
        dsimp only at hs ⊢
        by_cases he : s = affil
        · subst he
          rw [if_pos rfl] at hs
          have hn : st.affiliationList.length + 1 = n := by
            simpa using hs
          exact ⟨st.affiliationList.length, hn, List.getElem?_concat_length _ _⟩
        · rw [if_neg he] at hs
          obtain ⟨i, hi, hget⟩ := hI3 s n hs
          have hlt : i < st.affiliationList.length := by
            by_contra hge
            rw [List.getElem?_eq_none (Nat.le_of_not_lt hge)] at hget
            exact absurd hget (by simp)
          exact ⟨i, hi, by rw [List.getElem?_append_left hlt]; exact hget⟩
      · intro i
        dsimp only
        by_cases he : i = st.affiliationList.length
        · subst he
          rw [if_pos rfl]
          exact (List.getElem?_concat_length _ _).symm
        · have hne : i + 1 ≠ st.affiliationList.length + 1 := by omega
          rw [if_neg hne, hI4 i]
          by_cases hlt : i < st.affiliationList.length
          · rw [List.getElem?_append_left hlt]
          · have hge : st.affiliationList.length ≤ i := Nat.le_of_not_lt hlt
            rw [List.getElem?_eq_none hge, List.getElem?_eq_none]
            simp only [List.length_append, List.length_singleton]
            omega
      · dsimp only
        have hne : (0 : Nat) ≠ st.affiliationList.length + 1 := by omega
        rw [if_neg hne]
        exact hI5
      · intro x hx
        dsimp only
        rw [if_neg hx]
      · intro s n hs
        dsimp only
        obtain ⟨i, hi, hget⟩ := hI3 s n hs
        have hsm : s ∈ st.affiliationList := List.getElem?_mem hget
        have hne : s ≠ affil := fun e => hmem' (e ▸ hsm)
        rw [if_neg hne]
        exact hs
      · exact ⟨affil, st.affiliationList.length + 1, rfl, by dsimp only; rw [if_pos rfl],
          by dsimp only; rw [if_pos rfl]⟩
    · rw [if_neg hmem] at h
      cases hn : st.affilStrToNum affil with
      | none => rw [hn] at h; exact absurd h (by simp)
      | some n =>
        rw [hn] at h
        injection h with hst'
        subst hst'
        refine ⟨⟨hI1, hI2, hI3, hI4, hI5⟩, ⟨[], by simp⟩, ?_, ?_, ?_⟩
        · intro x hx
          dsimp only
          rw [if_neg hx]
        · intro s m hs
          exact hs
        · exact ⟨affil, n, rfl, hn, by dsimp only; rw [if_pos rfl]⟩

/-- An assigned string-to-number pair is mirrored by the number-to-string
map. -/
theorem numToStr_of_strToNum {st : AffilState} (hInv : RegistryInv st)
    {s : String} {n : Nat} (h : st.affilStrToNum s = some n) :
    st.affilNumToStr n = some s := by
  obtain ⟨i, hi, hget⟩ := hInv.2.2.1 s n h
  subst hi
  rw [hInv.2.2.2.1 i]
  exact hget

theorem makeAffiliationsDictsGo_ok (table : List ARow) :
    ∀ (order : List String) (st st' : AffilState),
      RegistryInv st → makeAffiliationsDictsGo table order st = Except.ok st' →
      RegistryInv st'
      ∧ (∃ t, st'.affiliationList = st.affiliationList ++ t)
      ∧ (∀ x, x ∉ order → st'.authorToAffilNums x = st.authorToAffilNums x)
      ∧ (∀ s n, st.affilStrToNum s = some n → st'.affilStrToNum s = some n)
      ∧ (order.Nodup → ∀ a ∈ order, st.authorToAffilNums a = [] →
          ∃ s n, lookupAffil table a = some s ∧ st'.affilStrToNum s = some n ∧
            st'.authorToAffilNums a = [n]) := by
  intro order
  induction order with
  | nil =>
    intro st st' hInv h
    have hst : st = st' := by
      simpa [makeAffiliationsDictsGo] using h
    subst hst
    exact ⟨hInv, ⟨[], by simp⟩, fun x _ => rfl, fun s n hs => hs,
      fun _ a ha => absurd ha (List.not_mem_nil a)⟩
  | cons b rest ih =>
    intro st st' hInv h
    rw [makeAffiliationsDictsGo] at h
    cases hp : processAuthor table st b with
    | error e => rw [hp] at h; exact absurd h (by simp)
    | ok st1 =>
      rw [hp] at h
      obtain ⟨hInv1, ⟨t1, ht1⟩, huntouched1, hstable1, hplaced1⟩ :=
        processAuthor_ok hInv hp
      obtain ⟨hInv', ⟨t2, ht2⟩, huntouched2, hstable2, hplaced2⟩ :=
        ih st1 st' hInv1 h
      refine ⟨hInv', ⟨t1 ++ t2, by rw [ht2, ht1, List.append_assoc]⟩, ?_, ?_, ?_⟩
      · intro x hx
        have hxb : x ≠ b := fun e => hx (e ▸ List.mem_cons_self ..)
        have hxr : x ∉ rest := fun e => hx (List.mem_cons_of_mem _ e)
        rw [huntouched2 x hxr, huntouched1 x hxb]
      · intro s n hs
        exact hstable2 s n (hstable1 s n hs)
      · intro hnd c hc hcempty
        have hbr : b ∉ rest := (List.nodup_cons.mp hnd).1
        have hrest : rest.Nodup := (List.nodup_cons.mp hnd).2
        rcases List.mem_cons.mp hc with rfl | hcr
        · obtain ⟨s, n, hls, hsn, hnums⟩ := hplaced1
          refine ⟨s, n, hls, hstable2 s n hsn, ?_⟩
          rw [huntouched2 c hbr, hnums, hcempty]
          simp
        · have hcb : c ≠ b := fun e => hbr (e ▸ hcr)
          have hc1 : st1.authorToAffilNums c = [] := by
            rw [huntouched1 c hcb, hcempty]
          exact hplaced2 hrest c hcr hc1

/-- C4.  Affiliation numbers are assigned by traversing the author order:
the string at (0-based) position `i` of the first-seen list
`affiliation_list` carries number `i + 1` in both direction maps (so the
first distinct string gets the next integer starting at 1), and every
author's affiliation string — already seen or not — is recorded against the
author with exactly the number registered for that string. -/
theorem affiliationNumbering_firstSeen (table : List ARow)
    (order : List String) (st : AffilState)
    (h : makeAffiliationsDicts table order = Except.ok st)
    (hnd : order.Nodup) :
    st.affiliationList.Nodup
    ∧ (∀ i s, st.affiliationList[i]? = some s →
        st.affilStrToNum s = some (i + 1) ∧ st.affilNumToStr (i + 1) = some s)
    ∧ (∀ a ∈ order, ∀ s, lookupAffil table a = some s →
        ∃ n, st.affilStrToNum s = some n ∧ st.affilNumToStr n = some s ∧
          st.authorToAffilNums a = [n]) := by
  obtain ⟨hInv, _, _, _, hplaced⟩ :=
    makeAffiliationsDictsGo_ok table order initAffilState st registryInv_init h
  refine ⟨hInv.1, ?_, ?_⟩
  · intro i s hs
    exact ⟨hInv.2.1 i s hs, (hInv.2.2.2.1 i).trans hs⟩
  · intro a ha s hs
    obtain ⟨s', n, hls', hsn', hnums'⟩ := hplaced hnd a ha rfl
    have hss : s' = s := by
      rw [hs] at hls'
      exact (Option.some.injEq _ _ ▸ hls').symm
    subst hss
    exact ⟨n, hsn', numToStr_of_strToNum hInv hsn', hnums'⟩

/-- C7.  Round-trip of the registry maps: for every assigned number
`n ∈ [1, len(affiliation_list)]`, looking up the number's string and then
the string's number recovers `n`. -/
theorem affiliationNumber_roundtrip (table : List ARow)
    (order : List String) (st : AffilState)
    (h : makeAffiliationsDicts table order = Except.ok st) :
    ∀ n, 1 ≤ n → n ≤ st.affiliationList.length →
      ∃ s, st.affilNumToStr n = some s ∧ st.affilStrToNum s = some n := by
  obtain ⟨hInv, _, _, _, _⟩ :=
    makeAffiliationsDictsGo_ok table order initAffilState st registryInv_init h
  intro n h1 h2
  obtain ⟨i, rfl⟩ : ∃ i, n = i + 1 := ⟨n - 1, by omega⟩
  have hi : i < st.affiliationList.length := by omega
  refine ⟨st.affiliationList[i], ?_, ?_⟩
  · rw [hInv.2.2.2.1 i]
    exact List.getElem?_eq_getElem hi
  · exact hInv.2.1 i _ (List.getElem?_eq_getElem hi)

/-- C9.  Each author of the order whose key resolves in the author-record
table is associated with exactly one affiliation number: the affiliation
cell is treated as a single affiliation string, never split. -/
theorem authorAffilNums_singleton (table : List ARow)
    (order : List String) (st : AffilState)
    (h : makeAffiliationsDicts table order = Except.ok st)
    (hnd : order.Nodup) (a : String) (ha : a ∈ order)
    (_hres : (lookupAffil table a).isSome) :
    (st.authorToAffilNums a).length = 1 := by
  obtain ⟨_, _, _, _, hplaced⟩ :=
    makeAffiliationsDictsGo_ok table order initAffilState st registryInv_init h
  obtain ⟨s, n, _, _, hnums⟩ := hplaced hnd a ha rfl
  rw [hnums]
  rfl

theorem patchPogoreutz_key (a : ARow) : (patchPogoreutz a).key = a.key := by
  unfold patchPogoreutz
  split
  · rfl
  · rfl

/-- C10.  The sentinel string `not-provided` is an ordinary affiliation for
the registry: it enters `affiliation_list`, receives an affiliation number,
is recorded in the author's number list and appears in the rendered
affiliation entries.  Only the creator-array construction filters the
sentinel out (the `affiliation` key is omitted); and the manually appended
author record (`ClayssenQ`) indeed carries this sentinel affiliation. -/
theorem sentinelAffiliation_registered (table : List ARow)
    (order : List String) (st : AffilState)
    (h : makeAffiliationsDicts table order = Except.ok st)
    (hnd : order.Nodup) (a : String) (ha : a ∈ order)
    (hs : lookupAffil table a = some "not-provided") :
    "not-provided" ∈ st.affiliationList
    ∧ (∃ n, st.affilStrToNum "not-provided" = some n ∧
        st.authorToAffilNums a = [n] ∧
        (toString n ++ "-" ++ "not-provided") ∈ affiliationEntries st)
    ∧ (∀ rec, table.find? (fun x => x.key == a) = some rec →
        (makeCreatorEntry rec).affiliation = none)
    ∧ (∀ rows table2, makeAuthorInfoDf rows = some table2 →
        "ClayssenQ" ∉ rows.map ARow.key →
        lookupAffil table2 "ClayssenQ" = some "not-provided") := by
  obtain ⟨hInv, _, _, _, hplaced⟩ :=
    makeAffiliationsDictsGo_ok table order initAffilState st registryInv_init h
  obtain ⟨s', n, hls', hsn', hnums'⟩ := hplaced hnd a ha rfl
  have hss : s' = "not-provided" := by
    rw [hs] at hls'
    exact (Option.some.injEq _ _ ▸ hls').symm
  subst hss
  obtain ⟨i, hin, hget⟩ := hInv.2.2.1 _ n hsn'
  have hi : i < st.affiliationList.length := by
    by_contra hge
    rw [List.getElem?_eq_none (Nat.le_of_not_lt hge)] at hget
    exact absurd hget (by simp)
  refine ⟨List.getElem?_mem hget, ⟨n, hsn', hnums', ?_⟩, ?_, ?_⟩
  · subst hin
    unfold affiliationEntries
    refine List.mem_map.mpr ⟨i, List.mem_range.mpr hi, ?_⟩
    rw [hInv.2.2.2.1 i, hget]
    rfl
  · intro rec hrec
    rw [lookupAffil, hrec] at hs
    have haff : rec.affiliation = "not-provided" := by
      simpa using hs
    unfold makeCreatorEntry
    dsimp only
    rw [if_pos haff]
  · intro rows table2 h2 hnot
    have htab : table2 = (rows.map patchPogoreutz) ++ [clayssenRow] := by
      unfold makeAuthorInfoDf at h2
      by_cases hu : (rows.map ARow.key).Nodup
      · rw [if_pos hu] at h2
        exact (Option.some.injEq _ _ ▸ h2).symm
      · rw [if_neg hu] at h2
        exact absurd h2 (by simp)
    subst htab
    unfold lookupAffil
    rw [List.find?_append]
    have hfindl : (rows.map patchPogoreutz).find?
        (fun x => x.key == "ClayssenQ") = none := by
      rw [List.find?_eq_none]
      intro x hx
      obtain ⟨r, hr, rfl⟩ := List.mem_map.mp hx
      have hk : r.key ≠ "ClayssenQ" := by
        intro e
        exact hnot (e ▸ List.mem_map_of_mem ARow.key hr)
      rw [patchPogoreutz_key]
      simpa using hk
    rw [hfindl]
    rfl

/-! Concrete fixtures used by the witnesses of the registry theorems. -/

def tblDemo : List ARow :=
  [⟨"Smith", "John", "J.", "Lab1", "0000-0001"⟩,
   ⟨"Doe", "Anna", "A.", "Lab2", "0000-0002"⟩,
   ⟨"Lee", "Ken", "K.", "Lab1", "0000-0003"⟩]

def ordDemo : List String := ["SmithJ", "DoeA", "LeeK"]

def stDemo : AffilState :=
  match makeAffiliationsDicts tblDemo ordDemo with
  | Except.ok st => st
  | Except.error _ => initAffilState

def tblSent : List ARow := [clayssenRow]

def stSent : AffilState :=
  match makeAffiliationsDicts tblSent ["ClayssenQ"] with
  | Except.ok st => st
  | Except.error _ => initAffilState

/-- C4 witness: in the demo order, the third author shares the first
author's affiliation string and re-uses number 1. -/
theorem affiliationNumbering_firstSeen_witness :
    stDemo.affilStrToNum "Lab1" = some 1 ∧
    stDemo.authorToAffilNums "LeeK" = [1] := by
  obtain ⟨n, h1, h2, h3⟩ :=
    (affiliationNumbering_firstSeen tblDemo ordDemo stDemo rfl
      (by decide)).2.2 "LeeK" (by decide) "Lab1" (by decide)
  have hv : stDemo.affilStrToNum "Lab1" = some 1 := by decide
  have hn : n = 1 := by
    rw [hv] at h1
    simpa using h1.symm
  subst hn
  exact ⟨hv, h3⟩

/-- C7 witness: number 2 of the demo registry round-trips. -/
theorem affiliationNumber_roundtrip_witness :
    stDemo.affilNumToStr 2 = some "Lab2" ∧
    stDemo.affilStrToNum "Lab2" = some 2 := by
  obtain ⟨s, h1, h2⟩ :=
    affiliationNumber_roundtrip tblDemo ordDemo stDemo rfl 2
      (by decide) (by decide)
  have hv : stDemo.affilNumToStr 2 = some "Lab2" := by decide
  have hsv : s = "Lab2" := by
    rw [hv] at h1
    simpa using h1.symm
  subst hsv
  exact ⟨hv, h2⟩

/-- C9 witness: the demo order's second author has exactly one affiliation
number. -/
theorem authorAffilNums_singleton_witness :
    (stDemo.authorToAffilNums "DoeA").length = 1 :=
  authorAffilNums_singleton tblDemo ordDemo stDemo rfl (by decide)
    "DoeA" (by decide) (by decide)

/-- C10 witness: the appended `ClayssenQ` record's sentinel affiliation is
registered with number 1. -/
theorem sentinelAffiliation_registered_witness :
    "not-provided" ∈ stSent.affiliationList ∧
    stSent.authorToAffilNums "ClayssenQ" = [1] := by
  obtain ⟨hmem, ⟨n, hn, hnums, _⟩, _, _⟩ :=
    sentinelAffiliation_registered tblSent ["ClayssenQ"] stSent rfl
      (by decide) "ClayssenQ" (by decide) (by decide)
  have hv : stSent.affilStrToNum "not-provided" = some 1 := by decide
  have hn1 : n = 1 := by
    rw [hv] at hn
    simpa using hn.symm
  subst hn1
  exact ⟨hmem, hnums⟩

/-- The `sup_map` dictionary of `_superscript`; a lookup of a character
outside the ten digits raises a `KeyError`, modelled as `none`. -/
def supMap (c : Char) : Option Char :=
  if c = '0' then some '⁰' else
  if c = '1' then some '¹' else
  if c = '2' then some '²' else
  if c = '3' then some '³' else
  if c = '4' then some '⁴' else
  if c = '5' then some '⁵' else
  if c = '6' then some '⁶' else
  if c = '7' then some '⁷' else
  if c = '8' then some '⁸' else
  if c = '9' then some '⁹' else
  none

/-- Embeds `_superscript`: render the number in decimal (`str(number_to_convert)`,
embedded as `Nat.toDigits 10`, Lean's own decimal rendering of a natural
number) and translate it character by character through `sup_map`,
concatenating the results. -/
def superscript (numberToConvert : Nat) : Option String :=
  ((Nat.toDigits 10 numberToConvert).mapM supMap).map List.asString

/-- Modelled from the spec: the total digit map of the spec's words "map
each ASCII digit 0–9 to its Unicode superscript equivalent" (non-digits,
which never occur in a decimal rendering, are left unchanged). -/
def supDigit (c : Char) : Char :=
  if c = '0' then '⁰' else
  if c = '1' then '¹' else
  if c = '2' then '²' else
  if c = '3' then '³' else
  if c = '4' then '⁴' else
  if c = '5' then '⁵' else
  if c = '6' then '⁶' else
  if c = '7' then '⁷' else
  if c = '8' then '⁸' else
  if c = '9' then '⁹' else
  c

/-- Modelled from the spec: superscript conversion as a pure digit-wise map
over the decimal rendering, concatenated in order. -/
def superscriptSpec (n : Nat) : String :=
  ((Nat.toDigits 10 n).map supDigit).asString

theorem supMap_digitChar :
    ∀ d, d < 10 → supMap (Nat.digitChar d) = some (supDigit (Nat.digitChar d)) := by
  decide

theorem toDigitsCore_digits :
    ∀ (fuel n : Nat) (ds : List Char),
      (∀ c ∈ ds, supMap c = some (supDigit c)) →
      ∀ c ∈ Nat.toDigitsCore 10 fuel n ds, supMap c = some (supDigit c) := by
  intro fuel
  induction fuel with
  | zero =>
    intro n ds hds c hc
    exact hds c hc
  | succ fuel ih =>
    intro n ds hds c hc
    simp only [Nat.toDigitsCore] at hc
    have hcons : ∀ c ∈ (Nat.digitChar (n % 10) :: ds),
        supMap c = some (supDigit c) := by
      intro c hc
      rcases List.mem_cons.mp hc with rfl | hc'
      · exact supMap_digitChar (n % 10) (Nat.mod_lt n (by omega))
      · exact hds c hc'
    by_cases h0 : n / 10 = 0
    · rw [if_pos h0] at hc
      exact hcons c hc
    · rw [if_neg h0] at hc
      exact ih (n / 10) _ hcons c hc

theorem mapM_supMap_eq (l : List Char)
    (h : ∀ c ∈ l, supMap c = some (supDigit c)) :
    l.mapM supMap = some (l.map supDigit) := by
  induction l with
  | nil => rfl
  | cons c l ih =>
    rw [List.mapM_cons, h c (List.mem_cons_self ..),
      ih (fun c hc => h c (List.mem_cons_of_mem _ hc))]
    rfl

/-- C8.  Superscript conversion is a pure digit-wise map over the decimal
rendering of a positive integer: each ASCII digit is replaced by its
Unicode superscript and the results are concatenated in order; in
particular `superscript 12 = "¹²"` and `superscript 7 = "⁷"`. -/
theorem superscript_digitwise :
    (∀ n, 0 < n → superscript n = some (superscriptSpec n))
    ∧ superscript 12 = some "¹²" ∧ superscript 7 = some "⁷" := by
  refine ⟨?_, by decide, by decide⟩
  intro n _
  unfold superscript superscriptSpec Nat.toDigits
  rw [mapM_supMap_eq _ (toDigitsCore_digits (n + 1) n []
    (fun c hc => absurd hc (List.not_mem_nil c)))]
  rfl

/-- C8 witness. -/
theorem superscript_digitwise_witness :
    0 < 3 ∧ superscript 3 = some (superscriptSpec 3) :=
  ⟨by decide, superscript_digitwise.1 3 (by decide)⟩

/-- An HTTP response from the remote API, as far as the script inspects it:
its status code and the JSON fields the script accesses
(`links.bucket`, `links.html`, `id`); an absent field makes the
corresponding dictionary access raise a `KeyError`. -/
structure ZenodoResponse where
  status : Nat
  linksBucket : Option String
  linksHtml : Option String
  id : Option Nat
deriving DecidableEq

/-- Embeds `_create_blank_deposition`: reads `json()['links']['bucket']` and
`json()['id']` from the response without any status check; a missing field
raises a `KeyError`. -/
def createBlankDeposition (resp : ZenodoResponse) : Except String (String × Nat) :=
  match resp.linksBucket with
  | none => Except.error "KeyError: links.bucket"
  | some bucketUrl =>
    match resp.id with
    | none => Except.error "KeyError: id"
    | some depositionId => Except.ok (bucketUrl, depositionId)

/-- Embeds `_upload_files_to_deposition`: each `requests.put` response `r` is
discarded without inspection; the loop never fails. -/
def uploadFilesToDeposition (responses : List ZenodoResponse) :
    Except String Unit :=
  responses.foldl (fun acc _r => acc) (Except.ok ())

/-- Embeds `_associate_meta_data`: the response is returned to the caller without
any status check. -/
def associateMetaData (resp : ZenodoResponse) : Except String ZenodoResponse :=
  Except.ok resp

/-- Embeds `do_zenodo_submission`: create the deposition, upload the files, attach
the metadata, and print the `links.html` URL of the metadata response
(a missing field raises a `KeyError`). -/
def doZenodoSubmission (createResp : ZenodoResponse)
    (uploadResps : List ZenodoResponse) (metaResp : ZenodoResponse) :
    Except String String :=
  match createBlankDeposition createResp with
  | Except.error e => Except.error e
  | Except.ok _bucketAndId =>
    match uploadFilesToDeposition uploadResps with
    | Except.error e => Except.error e
    | Except.ok _ =>
      match associateMetaData metaResp with
      | Except.error e => Except.error e
      | Except.ok m =>
        match m.linksHtml with
        | none => Except.error "KeyError: links.html"
        | some url => Except.ok url

def okCreateResp : ZenodoResponse :=
  ⟨201, some "https://zenodo.org/api/files/bucket-1",
    some "https://zenodo.org/deposit/123", some 123⟩

def failedUploadResp : ZenodoResponse := ⟨500, none, none, none⟩

def okMetaResp : ZenodoResponse :=
  ⟨200, none, some "https://zenodo.org/deposit/123", some 123⟩

/-- C5 counterexample: a non-success (HTTP 500) response to the file-upload
request does not make the run fail — the submission completes and reports
the success URL, so no error carrying the status and body is raised. -/
theorem remoteApiFailure_not_surfaced :
    failedUploadResp.status = 500 ∧
    doZenodoSubmission okCreateResp [failedUploadResp] okMetaResp =
      Except.ok "https://zenodo.org/deposit/123" :=
  ⟨rfl, rfl⟩

/-- C5 (amended).  The script never inspects HTTP status codes: the upload
step succeeds whatever the responses were; deposit creation and metadata
association depend only on the presence of the JSON fields the code reads
(failing with a bare `KeyError`, not an error carrying status and body);
and the whole submission reports success whenever those fields are present,
regardless of every response's status.  No request is retried (each
request's single response is consumed exactly once). -/
theorem httpResponses_unchecked :
    (∀ responses, uploadFilesToDeposition responses = Except.ok ())
    ∧ (∀ r b i, r.linksBucket = some b → r.id = some i →
        createBlankDeposition r = Except.ok (b, i))
    ∧ (∀ r, associateMetaData r = Except.ok r)
    ∧ (∀ c us m url b i, c.linksBucket = some b → c.id = some i →
        m.linksHtml = some url →
        doZenodoSubmission c us m = Except.ok url) := by
  have hup : ∀ responses : List ZenodoResponse,
      uploadFilesToDeposition responses = Except.ok () := by
    intro responses
    unfold uploadFilesToDeposition
    induction responses with
    | nil => rfl
    | cons r rest ih => exact ih
  have hcreate : ∀ (r : ZenodoResponse) b i, r.linksBucket = some b →
      r.id = some i → createBlankDeposition r = Except.ok (b, i) := by
    intro r b i hb hi
    rw [createBlankDeposition, hb]
    simp only
    rw [hi]
  refine ⟨hup, hcreate, fun _ => rfl, ?_⟩
  intro c us m url b i hb hi hm
  rw [doZenodoSubmission, hcreate c b i hb hi, hup us]
  simp only [associateMetaData]
  rw [hm]

/-- C5 witness for the amended statement: even when every response carries a
non-success status, the submission still reports success as long as the
accessed JSON fields exist. -/
theorem httpResponses_unchecked_witness :
    doZenodoSubmission ⟨503, some "b", none, some 7⟩
      [⟨500, none, none, none⟩] ⟨404, none, some "u", none⟩ =
      Except.ok "u" :=
  httpResponses_unchecked.2.2.2 _ _ _ "u" "b" 7 rfl rfl rfl

/-- The existence check of `_get_and_check_datafile_paths`: collect every
path for which `os.path.isfile` is false and raise a single
`FileNotFoundError` listing all of them; return the paths unchanged when
none is missing. -/
def checkDatafilePaths (isFile : String → Bool) (paths : List String) :
    Except (List String) (List String) :=
  if paths.filter (fun p => !(isFile p)) = [] then
    Except.ok paths
  else
    Except.error (paths.filter (fun p => !(isFile p)))

/-- The submission pipeline: the existence check runs at setup time
(`_setup_submission_vars`, during `__init__`), strictly before
`do_zenodo_submission` issues any request. -/
def runSubmission (isFile : String → Bool) (paths : List String)
    (createResp : ZenodoResponse) (uploadResps : List ZenodoResponse)
    (metaResp : ZenodoResponse) : Except (List String ⊕ String) String :=
  match checkDatafilePaths isFile paths with
  | Except.error missing => Except.error (Sum.inl missing)
  | Except.ok _ =>
    match doZenodoSubmission createResp uploadResps metaResp with
    | Except.error e => Except.error (Sum.inr e)
    | Except.ok url => Except.ok url

/-- C6.  If at least one supplied data-file path does not exist, the check
fails with an error listing every missing path (not only the first one),
and the whole submission fails before consuming any network response;
if every path exists, the check raises no error. -/
theorem datafileCheck_failFast (isFile : String → Bool) (paths : List String) :
    ((∃ p ∈ paths, isFile p = false) →
      checkDatafilePaths isFile paths =
        Except.error (paths.filter (fun p => !(isFile p)))
      ∧ (∀ p ∈ paths, isFile p = false →
          p ∈ paths.filter (fun p => !(isFile p)))
      ∧ (∀ c us m, runSubmission isFile paths c us m =
          Except.error (Sum.inl (paths.filter (fun p => !(isFile p))))))
    ∧ ((∀ p ∈ paths, isFile p = true) →
        checkDatafilePaths isFile paths = Except.ok paths) := by
  constructor
  · rintro ⟨p, hp, hpf⟩
    have hne : paths.filter (fun p => !(isFile p)) ≠ [] := by
      intro he
      have hmem : p ∈ paths.filter (fun p => !(isFile p)) :=
        List.mem_filter.mpr ⟨hp, by simp [hpf]⟩
      rw [he] at hmem
      exact List.not_mem_nil p hmem
    have herr : checkDatafilePaths isFile paths =
        Except.error (paths.filter (fun p => !(isFile p))) := by
      rw [checkDatafilePaths, if_neg hne]
    refine ⟨herr, ?_, ?_⟩
    · intro q hq hqf
      exact List.mem_filter.mpr ⟨hq, by simp [hqf]⟩
    · intro c us m
      rw [runSubmission, herr]
  · intro hall
    have hnil : paths.filter (fun p => !(isFile p)) = [] := by
      rw [List.filter_eq_nil_iff]
      intro q hq
      simp [hall q hq]
    rw [checkDatafilePaths, if_pos hnil]

def isFileDemo : String → Bool := fun p => p == "a.txt"

/-- C6 witness: with `[a.txt, b.txt]` where only `a.txt` exists, the check
fails and its error contains `b.txt`. -/
theorem datafileCheck_failFast_witness :
    checkDatafilePaths isFileDemo ["a.txt", "b.txt"] =
      Except.error (["a.txt", "b.txt"].filter (fun p => !(isFileDemo p))) ∧
    "b.txt" ∈ ["a.txt", "b.txt"].filter (fun p => !(isFileDemo p)) := by
  have h := (datafileCheck_failFast isFileDemo ["a.txt", "b.txt"]).1
    ⟨"b.txt", by decide, by decide⟩
  exact ⟨h.1, h.2.1 "b.txt" (by decide) (by decide)⟩

end ExtractAuthorInfo
